import Mathlib

/-!
Verification of the commit-selection and URL-state synchronization logic of
`src/components/repo-detail.tsx` (flat-viewer).

The embedding models, faithfully to the TypeScript source:
- the `onSuccess` handler of `useCommits` (the reconciliation logic),
- the `React.useEffect` keyed on `selectedSha` (the URL write effect),
- the `selectedShaPrevious` computation (previous-commit resolver).

JavaScript semantics modelled explicitly:
- `commits[i]` on an out-of-range index is `undefined`, and reading `.sha`
  from `undefined` throws a `TypeError`; fallible evaluation is modelled
  with `Except Unit`.
- `Array.prototype.findIndex` returns `-1` when no element matches; the
  source's `selectedShaIndex !== -1` test is modelled by matching on
  `List.findIdx?`.
- the truthiness test `if (selectedSha)` on a string is `selectedSha ≠ ""`.
- query strings (`qs.parse` / `qs.stringify`) are modelled as association
  lists of single-valued parameters; `qs.stringify` skips `undefined`
  values and emits keys in sorted order (`key` before `sha`).
-/

/-- A commit as used by the selection logic: only the `sha` identifier is
relevant to the claims (message and author feed only the rendering). -/
structure Commit where
  sha : String
  deriving Repr, DecidableEq

/-- A parsed query string: an association list of single-valued parameters,
modelling the object produced by `qs.parse`. -/
abbrev Query := List (String × String)

/-- Looking a parameter up in a parsed query string (property access on the
object returned by `qs.parse`); `none` models `undefined`. -/
def qsLookup (q : Query) (k : String) : Option String :=
  (q.find? (fun p => p.1 == k)).map (fun p => p.2)

/-- JavaScript `commits[i].sha`: out of range, `commits[i]` is `undefined`
and the `.sha` access throws a `TypeError`, modelled as `Except.error ()`. -/
def shaAt (commits : List Commit) (i : Nat) : Except Unit String :=
  match commits.get? i with
  | some c => Except.ok c.sha
  | none => Except.error ()

/-- The previous-commit resolver of `repo-detail.tsx` lines 91-93:

    const selectedShaIndex = commits.findIndex((d) => d.sha === selectedSha);
    const selectedShaPrevious =
      selectedShaIndex !== -1 ? commits[selectedShaIndex + 1].sha : undefined;

`Except.ok none` models the `undefined` result of the `: undefined` branch;
`Except.error ()` models the `TypeError` thrown by the unguarded
`commits[selectedShaIndex + 1].sha` access. -/
def selectedShaPrevious (commits : List Commit) (selectedSha : String) :
    Except Unit (Option String) :=
  match commits.findIdx? (fun d => d.sha == selectedSha) with
  | some selectedShaIndex => (shaAt commits (selectedShaIndex + 1)).map some
  | none => Except.ok none

/-- The observable outcome of one run of the `onSuccess` handler:
the value of `selectedSha` after the handler (reflecting any
`setSelectedSha` call), the number of `toast.error` calls, and the query
strings passed to `history.push` directly inside the handler. -/
structure OnSuccessResult where
  selection : String
  toasts : Nat
  directPushes : List Query
  deriving Repr, DecidableEq

/-- The `onSuccess` handler of `useCommits` in `repo-detail.tsx`
lines 53-77, with `selectedSha` the current state value captured by the
closure.  `commits[0].sha` is evaluated before the `commits.length > 0`
guard, so the handler throws a `TypeError` on the empty list
(`Except.error ()`).  The branch structure below mirrors the source:
found (noop), not found (toast + direct `history.push` of
`qs.stringify(\x7b sha: mostRecentCommitSha \x7d)` + `setSelectedSha`),
and the empty-`selectedSha` default (`setSelectedSha` only). -/
def onSuccess (commits : List Commit) (selectedSha : String) :
    Except Unit OnSuccessResult :=
  match commits.head? with
  | none => Except.error ()
  | some c0 =>
    let mostRecentCommitSha := c0.sha
    if commits.length > 0 then
      if selectedSha ≠ "" then
        if commits.any (fun commit => commit.sha == selectedSha) then
          Except.ok ⟨selectedSha, 0, []⟩
        else
          Except.ok ⟨mostRecentCommitSha, 1, [[("sha", mostRecentCommitSha)]]⟩
      else
        Except.ok ⟨mostRecentCommitSha, 0, []⟩
    else
      Except.ok ⟨selectedSha, 0, []⟩

/-- The `React.useEffect` of `repo-detail.tsx` lines 35-42: when
`selectedSha` is non-empty it pushes
`qs.stringify(\x7b sha: selectedSha, key: currentQueryString.key \x7d)`;
`qs.stringify` drops the `key` entry when it is `undefined` and orders
keys alphabetically.  `none` models the effect making no push. -/
def selectionEffect (selectedSha : String) (currentQueryString : Query) :
    Option Query :=
  if selectedSha ≠ "" then
    some (match qsLookup currentQueryString "key" with
          | some k => [("key", k), ("sha", selectedSha)]
          | none => [("sha", selectedSha)])
  else none

/-- The observable outcome of one full reconciliation pass: the selection
after the pass, the number of warnings, and all query strings pushed to
`history` (direct pushes from `onSuccess` followed by the push of the
`selectedSha` effect, if it fired). -/
structure PassResult where
  selection : String
  toasts : Nat
  pushes : List Query
  deriving Repr, DecidableEq

/-- One reconciliation pass: the `onSuccess` handler runs, and if it
changed the `selectedSha` state (React re-runs the effect keyed on
`[selectedSha]` exactly when the state value changed), the URL effect of
lines 35-42 fires once against the current query string. -/
def reconcilePass (commits : List Commit) (selectedSha : String)
    (currentQueryString : Query) : Except Unit PassResult :=
  match onSuccess commits selectedSha with
  | Except.error e => Except.error e
  | Except.ok r =>
    let effectPushes : List Query :=
      if r.selection ≠ selectedSha then
        (selectionEffect r.selection currentQueryString).toList
      else []
    Except.ok ⟨r.selection, r.toasts, r.directPushes ++ effectPushes⟩

/-! ## Helper lemmas -/

/-- Unfolding of `onSuccess` on a non-empty commit list. -/
theorem onSuccess_cons (c0 : Commit) (rest : List Commit) (sel : String) :
    onSuccess (c0 :: rest) sel =
      (if sel ≠ "" then
        if (c0 :: rest).any (fun commit => commit.sha == sel) then
          Except.ok ⟨sel, 0, []⟩
        else
          Except.ok ⟨c0.sha, 1, [[("sha", c0.sha)]]⟩
      else Except.ok ⟨c0.sha, 0, []⟩) := by
  simp [onSuccess]

/-- Unfolding of `reconcilePass` once the `onSuccess` outcome is known. -/
theorem reconcilePass_eq (commits : List Commit) (sel : String) (q : Query)
    (r0 : OnSuccessResult) (h : onSuccess commits sel = Except.ok r0) :
    reconcilePass commits sel q = Except.ok ⟨r0.selection, r0.toasts,
      r0.directPushes ++
        if r0.selection ≠ sel then (selectionEffect r0.selection q).toList
        else []⟩ := by
  simp [reconcilePass, h]

/-- The query pushed by the `selectedSha` effect always carries the new
identifier under `sha`. -/
theorem selectionEffect_sha (sel : String) (q out : Query)
    (h : selectionEffect sel q = some out) :
    qsLookup out "sha" = some sel := by
  by_cases hs : sel = ""
  · simp [selectionEffect, hs] at h
  · rcases hk : qsLookup q "key" with _ | v <;>
      · simp [selectionEffect, hs, hk] at h
        subst h
        simp [qsLookup, List.find?]

/-! ## Claim theorems -/

/-- C8: `selectedShaPrevious` returns the identifier of the element at
`index(selectedId) + 1` in the newest-first list when `selectedId` is found
and a following element exists, and returns `undefined` (here `ok none`)
when `selectedId` is not found in the list. -/
theorem selectedShaPrevious_spec (commits : List Commit) (selectedSha : String) :
    (∀ i c, commits.findIdx? (fun d => d.sha == selectedSha) = some i →
      commits.get? (i + 1) = some c →
      selectedShaPrevious commits selectedSha = Except.ok (some c.sha)) ∧
    (commits.findIdx? (fun d => d.sha == selectedSha) = none →
      selectedShaPrevious commits selectedSha = Except.ok none) := by
  constructor
  · intro i c hfind hget
    rw [List.get?_eq_getElem?] at hget
    simp [selectedShaPrevious, hfind, shaAt, hget, Except.map]
  · intro hfind
    simp [selectedShaPrevious, hfind]

/-- Witness for C8: on `[a, b, c]`, the previous of `b` is `c`, and an
absent identifier resolves to `undefined`. -/
theorem selectedShaPrevious_spec_witness :
    selectedShaPrevious [⟨"a"⟩, ⟨"b"⟩, ⟨"c"⟩] "b" = Except.ok (some "c") ∧
    selectedShaPrevious [⟨"a"⟩, ⟨"b"⟩, ⟨"c"⟩] "q" = Except.ok none :=
  ⟨(selectedShaPrevious_spec [⟨"a"⟩, ⟨"b"⟩, ⟨"c"⟩] "b").1 1 ⟨"c"⟩ (by decide)
      rfl,
   (selectedShaPrevious_spec [⟨"a"⟩, ⟨"b"⟩, ⟨"c"⟩] "q").2 (by decide)⟩

/-- C2: the code throws on the last element.  With `commits = [a]` and
`selectedId = "a"` (the identifier of the last element), the resolver
evaluates `commits[1].sha` where `commits[1]` is `undefined`, throwing a
`TypeError` instead of returning `undefined`. -/
theorem selectedShaPrevious_last_throws :
    selectedShaPrevious [⟨"a"⟩] "a" = Except.error () := rfl

/-- C3: the code throws on the empty commit list.  `onSuccess` evaluates
`commits[0].sha` before the `commits.length > 0` guard, so with
`commits = []` the pass throws a `TypeError` for every requested
identifier instead of yielding "no selection". -/
theorem reconcilePass_empty_throws (sel : String) (q : Query) :
    reconcilePass [] sel q = Except.error () := rfl

/-- C10: when Selection is non-empty the effect pushes a query string whose
`sha` parameter is the new selection and whose `key` parameter is exactly
the one of the current URL (absent when absent); every other parameter of
the current URL is dropped; and while Selection is empty no push occurs. -/
theorem selectionEffect_spec (sel : String) (q : Query) :
    (sel ≠ "" → ∃ out, selectionEffect sel q = some out ∧
      qsLookup out "sha" = some sel ∧
      qsLookup out "key" = qsLookup q "key" ∧
      ∀ k, k ≠ "sha" → k ≠ "key" → qsLookup out k = none) ∧
    (sel = "" → selectionEffect sel q = none) := by
  constructor
  · intro hs
    rcases hk : qsLookup q "key" with _ | v
    · refine ⟨[("sha", sel)], by simp [selectionEffect, hs, hk], ?_, ?_, ?_⟩
      · simp [qsLookup, List.find?]
      · simp [qsLookup, List.find?, hk]
      · intro k hk1 _
        have h1 : (("sha" : String) == k) = false :=
          beq_eq_false_iff_ne.mpr (Ne.symm hk1)
        simp [qsLookup, List.find?, h1]
    · refine ⟨[("key", v), ("sha", sel)], by simp [selectionEffect, hs, hk],
        ?_, ?_, ?_⟩
      · simp [qsLookup, List.find?]
      · simp [qsLookup, List.find?, hk]
      · intro k hk1 hk2
        have h1 : (("sha" : String) == k) = false :=
          beq_eq_false_iff_ne.mpr (Ne.symm hk1)
        have h2 : (("key" : String) == k) = false :=
          beq_eq_false_iff_ne.mpr (Ne.symm hk2)
        simp [qsLookup, List.find?, h1, h2]
  · intro hs
    simp [selectionEffect, hs]

/-- Witness for C10: a concrete push with a `key` parameter present and a
stray `foo` parameter dropped. -/
theorem selectionEffect_spec_witness :
    ∃ out, selectionEffect "s1" [("foo", "f"), ("key", "k")] = some out ∧
      qsLookup out "sha" = some "s1" ∧
      qsLookup out "key" = qsLookup [("foo", "f"), ("key", "k")] "key" ∧
      ∀ k, k ≠ "sha" → k ≠ "key" → qsLookup out k = none :=
  (selectionEffect_spec "s1" [("foo", "f"), ("key", "k")]).1 (by decide)

/-- Full case analysis of one reconciliation pass on a non-empty list. -/
theorem reconcilePass_cons (c0 : Commit) (rest : List Commit) (sel : String)
    (q : Query) :
    reconcilePass (c0 :: rest) sel q =
      (if sel ≠ "" then
        if (c0 :: rest).any (fun commit => commit.sha == sel) then
          Except.ok ⟨sel, 0, []⟩
        else
          Except.ok ⟨c0.sha, 1, [("sha", c0.sha)] ::
            (if c0.sha ≠ sel then (selectionEffect c0.sha q).toList else [])⟩
      else
        Except.ok ⟨c0.sha, 0,
          if c0.sha ≠ "" then (selectionEffect c0.sha q).toList else []⟩) := by
  by_cases hs : sel = ""
  · subst hs
    rw [reconcilePass_eq _ _ q ⟨c0.sha, 0, []⟩ (by rw [onSuccess_cons]; simp)]
    simp
  · by_cases hany : (c0 :: rest).any (fun commit => commit.sha == sel) = true
    · rw [reconcilePass_eq _ _ q ⟨sel, 0, []⟩
        (by rw [onSuccess_cons]; simp [hs, hany])]
      simp [hs, hany]
    · have hany2 : (c0 :: rest).any (fun commit => commit.sha == sel) = false := by
        simpa using hany
      rw [reconcilePass_eq _ _ q ⟨c0.sha, 1, [[("sha", c0.sha)]]⟩
        (by rw [onSuccess_cons]; simp [hs, hany2])]
      simp [hs, hany2]

/-- The direct push of the recovery branch carries the new identifier. -/
theorem qsLookup_sha_single (x : String) :
    qsLookup [("sha", x)] "sha" = some x := by
  simp [qsLookup, List.find?]

/-- C1: on a non-empty commit list the pass completes without throwing and
the resulting Selection is the identifier of some element of the list, for
every value of the `selectedSha` state (which carries both the requested
identifier and the prior selection in the source). -/
theorem reconcilePass_selection_mem (commits : List Commit) (sel : String)
    (q : Query) (h : commits ≠ []) :
    ∃ r, reconcilePass commits sel q = Except.ok r ∧
      r.selection ∈ commits.map Commit.sha := by
  cases commits with
  | nil => exact absurd rfl h
  | cons c0 rest =>
    rw [reconcilePass_cons]
    by_cases hs : sel = ""
    · subst hs
      simp only [ne_eq, not_true_eq_false, if_false]
      exact ⟨_, rfl, List.mem_map_of_mem _ (List.mem_cons_self _ _)⟩
    · by_cases hany : (c0 :: rest).any (fun commit => commit.sha == sel) = true
      · simp only [hs, ne_eq, not_false_eq_true, if_true, hany]
        refine ⟨_, rfl, ?_⟩
        simp only [List.any_eq_true, beq_iff_eq] at hany
        obtain ⟨c, hc, hcs⟩ := hany
        exact List.mem_map.mpr ⟨c, hc, hcs⟩
      · have hany2 : (c0 :: rest).any (fun commit => commit.sha == sel) = false := by
          simpa using hany
        simp only [hs, ne_eq, not_false_eq_true, if_true, hany2, Bool.false_eq_true,
          if_false]
        exact ⟨_, rfl, List.mem_map_of_mem _ (List.mem_cons_self _ _)⟩

/-- Witness for C1: one commit, an absent requested identifier. -/
theorem reconcilePass_selection_mem_witness :
    ∃ r, reconcilePass [⟨"a"⟩] "zz" [] = Except.ok r ∧
      r.selection ∈ ([⟨"a"⟩] : List Commit).map Commit.sha :=
  reconcilePass_selection_mem [⟨"a"⟩] "zz" [] (by decide)

/-- C7: when the requested identifier is non-empty and present in the
commit list, the pass keeps Selection equal to that identifier, emits zero
warnings, and pushes nothing (the noop branch). -/
theorem reconcilePass_fresh_pick (commits : List Commit) (sel : String)
    (q : Query) (hs : sel ≠ "") (hmem : ∃ c ∈ commits, c.sha = sel) :
    reconcilePass commits sel q = Except.ok ⟨sel, 0, []⟩ := by
  obtain ⟨c, hc, hcs⟩ := hmem
  cases commits with
  | nil => cases hc
  | cons c0 rest =>
    have hany : (c0 :: rest).any (fun commit => commit.sha == sel) = true := by
      simp only [List.any_eq_true, beq_iff_eq]
      exact ⟨c, hc, hcs⟩
    rw [reconcilePass_cons]
    simp [hs, hany]

/-- Witness for C7: requested identifier found in the middle of the list. -/
theorem reconcilePass_fresh_pick_witness :
    reconcilePass [⟨"a"⟩, ⟨"b"⟩, ⟨"c"⟩] "b" [] = Except.ok ⟨"b", 0, []⟩ :=
  reconcilePass_fresh_pick [⟨"a"⟩, ⟨"b"⟩, ⟨"c"⟩] "b" [] (by decide)
    ⟨⟨"b"⟩, by decide, rfl⟩

/-- C4: when the requested identifier is non-empty and absent from a
non-empty commit list, the pass sets Selection to the first (most recent)
element's identifier, emits exactly one warning, and pushes persisted
state carrying the new identifier. -/
theorem reconcilePass_stale_recovery (commits : List Commit) (sel : String)
    (q : Query) (c0 : Commit) (h0 : commits.head? = some c0) (hs : sel ≠ "")
    (habs : ∀ c ∈ commits, c.sha ≠ sel) :
    ∃ r, reconcilePass commits sel q = Except.ok r ∧
      r.selection = c0.sha ∧ r.toasts = 1 ∧
      ∃ p ∈ r.pushes, qsLookup p "sha" = some c0.sha := by
  cases commits with
  | nil => cases h0
  | cons d rest =>
    simp only [List.head?_cons, Option.some.injEq] at h0
    subst h0
    have hany : (d :: rest).any (fun commit => commit.sha == sel) = false := by
      simp only [List.any_eq_false, beq_iff_eq]
      exact habs
    rw [reconcilePass_cons]
    simp only [hs, ne_eq, not_false_eq_true, if_true, hany, Bool.false_eq_true,
      if_false]
    exact ⟨_, rfl, rfl, rfl,
      [("sha", d.sha)], List.mem_cons_self _ _, qsLookup_sha_single d.sha⟩

/-- Witness for C4: singleton list, absent requested identifier. -/
theorem reconcilePass_stale_recovery_witness :
    ∃ r, reconcilePass [⟨"a"⟩] "zz" [("key", "k")] = Except.ok r ∧
      r.selection = "a" ∧ r.toasts = 1 ∧
      ∃ p ∈ r.pushes, qsLookup p "sha" = some "a" :=
  reconcilePass_stale_recovery [⟨"a"⟩] "zz" [("key", "k")] ⟨"a"⟩ rfl
    (by decide) (by decide)

/-- C9: when both the requested identifier and the current selection are
empty (the `selectedSha` state is the empty string) and the list is
non-empty, the pass sets Selection to the first element's identifier and,
the identifier being a non-empty hash, pushes the persisted state. -/
theorem reconcilePass_default_pick (commits : List Commit) (q : Query)
    (c0 : Commit) (h0 : commits.head? = some c0) :
    ∃ r, reconcilePass commits "" q = Except.ok r ∧ r.selection = c0.sha ∧
      (c0.sha ≠ "" → ∃ p ∈ r.pushes, qsLookup p "sha" = some c0.sha) := by
  cases commits with
  | nil => cases h0
  | cons d rest =>
    simp only [List.head?_cons, Option.some.injEq] at h0
    subst h0
    rw [reconcilePass_cons]
    simp only [ne_eq, not_true_eq_false, if_false]
    refine ⟨_, rfl, rfl, ?_⟩
    intro hne
    rcases hout : selectionEffect d.sha q with _ | out
    · exact absurd hout (by simp [selectionEffect, hne])
    · exact ⟨out, by simp [hne, hout], selectionEffect_sha _ _ _ hout⟩

/-- Witness for C9: two commits, empty state, `key` present in the URL. -/
theorem reconcilePass_default_pick_witness :
    ∃ r, reconcilePass [⟨"a"⟩, ⟨"b"⟩] "" [("key", "k")] = Except.ok r ∧
      r.selection = "a" ∧
      (("a" : String) ≠ "" → ∃ p ∈ r.pushes, qsLookup p "sha" = some "a") :=
  reconcilePass_default_pick [⟨"a"⟩, ⟨"b"⟩] [("key", "k")] ⟨"a"⟩ rfl

/-- Counterexample to C5: with `commits = [a]`, prior state `"b"` and an
empty current query string, the pass changes Selection from `"b"` to `"a"`
and pushes persisted state twice for this single change (the direct push of
the recovery branch and the push of the `selectedSha` effect). -/
theorem reconcilePass_change_writes_cex :
    reconcilePass [⟨"a"⟩] "b" [] =
      Except.ok ⟨"a", 1, [[("sha", "a")], [("sha", "a")]]⟩ ∧
    ("a" : String) ≠ "b" ∧
    ¬ ([[("sha", "a")], [("sha", "a")]] : List Query).length ≤ 1 :=
  ⟨rfl, by decide, by decide⟩

/-- C5 (amended): whenever one reconciliation pass changes Selection,
between one and two persisted-state updates are emitted, each carrying the
new identifier — exactly two in the stale-recovery branch (its direct push
plus the effect push), one otherwise. -/
theorem reconcilePass_change_writes (commits : List Commit) (sel : String)
    (q : Query) (r : PassResult)
    (h : reconcilePass commits sel q = Except.ok r)
    (hch : r.selection ≠ sel) :
    1 ≤ r.pushes.length ∧ r.pushes.length ≤ 2 ∧
      ∀ p ∈ r.pushes, qsLookup p "sha" = some r.selection := by
  cases commits with
  | nil => simp [reconcilePass, onSuccess] at h
  | cons c0 rest =>
    rw [reconcilePass_cons] at h
    by_cases hs : sel = ""
    · subst hs
      simp only [ne_eq, not_true_eq_false, if_false, Except.ok.injEq] at h
      subst h
      have hne : c0.sha ≠ "" := hch
      rcases hout : selectionEffect c0.sha q with _ | out
      · exact absurd hout (by simp [selectionEffect, hne])
      · simp only [hne, ne_eq, not_false_eq_true, if_true, hout]
        refine ⟨by simp, by simp, ?_⟩
        intro p hp
        simp only [Option.toList_some, List.mem_singleton] at hp
        subst hp
        exact selectionEffect_sha _ _ _ hout
    · by_cases hany : (c0 :: rest).any (fun commit => commit.sha == sel) = true
      · simp only [hs, ne_eq, not_false_eq_true, if_true, hany,
          Except.ok.injEq] at h
        subst h
        exact absurd rfl hch
      · have hany2 : (c0 :: rest).any (fun commit => commit.sha == sel) = false := by
          simpa using hany
        simp only [hs, ne_eq, not_false_eq_true, if_true, hany2,
          Bool.false_eq_true, if_false, Except.ok.injEq] at h
        subst h
        simp only at hch
        simp only [hch, ne_eq, not_false_eq_true, if_true]
        rcases hout : selectionEffect c0.sha q with _ | out
        · refine ⟨by simp, by simp, ?_⟩
          intro p hp
          simp only [hout, Option.toList_none, List.mem_singleton] at hp
          subst hp
          exact qsLookup_sha_single c0.sha
        · refine ⟨by simp, by simp [hout], ?_⟩
          intro p hp
          simp only [hout, Option.toList_some, List.mem_cons,
            List.mem_singleton] at hp
          rcases hp with hp | hp | hp
          · subst hp; exact qsLookup_sha_single c0.sha
          · subst hp; exact selectionEffect_sha _ _ _ hout
          · cases hp

/-- Witness for C5 (amended): the recovery input of the counterexample
emits two pushes, both carrying the new identifier. -/
theorem reconcilePass_change_writes_witness :
    1 ≤ ([[("sha", "a")], [("sha", "a")]] : List Query).length ∧
    ([[("sha", "a")], [("sha", "a")]] : List Query).length ≤ 2 ∧
    ∀ p ∈ ([[("sha", "a")], [("sha", "a")]] : List Query),
      qsLookup p "sha" = some (PassResult.mk "a" 1
        [[("sha", "a")], [("sha", "a")]]).selection :=
  reconcilePass_change_writes [⟨"a"⟩] "b" [] ⟨"a", 1, [[("sha", "a")], [("sha", "a")]]⟩
    rfl (by decide)

/-- Counterexample to C6: with `commits = [a]` and state `"b"`, the first
pass alone already pushes persisted state twice, so two successive passes
(the second seeing the updated selection `"a"`) trigger the write twice,
not at most once. -/
theorem reconcilePass_two_runs_cex :
    reconcilePass [⟨"a"⟩] "b" [] =
      Except.ok ⟨"a", 1, [[("sha", "a")], [("sha", "a")]]⟩ ∧
    reconcilePass [⟨"a"⟩] "a" [] = Except.ok ⟨"a", 0, []⟩ ∧
    ¬ (([[("sha", "a")], [("sha", "a")]] : List Query).length +
        ([] : List Query).length ≤ 1) :=
  ⟨rfl, rfl, by decide⟩

/-- C6 (amended): two successive passes over a non-empty list with the
list and query string unchanged (the second pass seeing the selection the
first one produced) yield the same Selection as a single pass; the second
pass pushes nothing, and in total at most two persisted-state writes occur
(two only through the recovery branch of the first pass). -/
theorem reconcilePass_two_runs (commits : List Commit) (sel : String)
    (q : Query) (h : commits ≠ []) :
    ∃ r1 r2, reconcilePass commits sel q = Except.ok r1 ∧
      reconcilePass commits r1.selection q = Except.ok r2 ∧
      r2.selection = r1.selection ∧ r2.pushes = [] ∧
      r1.pushes.length + r2.pushes.length ≤ 2 := by
  cases commits with
  | nil => exact absurd rfl h
  | cons c0 rest =>
    have hself : (c0 :: rest).any (fun commit => commit.sha == c0.sha) = true := by
      simp
    have second : reconcilePass (c0 :: rest) c0.sha q =
        Except.ok ⟨c0.sha, 0, []⟩ := by
      rw [reconcilePass_cons]
      by_cases h0 : c0.sha = ""
      · simp [h0]
      · simp [h0, hself]
    by_cases hs : sel = ""
    · subst hs
      refine ⟨⟨c0.sha, 0,
          if c0.sha ≠ "" then (selectionEffect c0.sha q).toList else []⟩,
        ⟨c0.sha, 0, []⟩, by rw [reconcilePass_cons]; simp, second, rfl, rfl, ?_⟩
      by_cases h0 : c0.sha = ""
      · simp [h0]
      · rcases hout : selectionEffect c0.sha q with _ | out
        · simp [h0, hout]
        · simp [h0, hout]
    · by_cases hany : (c0 :: rest).any (fun commit => commit.sha == sel) = true
      · refine ⟨⟨sel, 0, []⟩, ⟨sel, 0, []⟩,
          by rw [reconcilePass_cons]; simp [hs, hany],
          by rw [reconcilePass_cons]; simp [hs, hany], rfl, rfl, by simp⟩
      · have hany2 : (c0 :: rest).any (fun commit => commit.sha == sel) = false := by
          simpa using hany
        refine ⟨⟨c0.sha, 1, [("sha", c0.sha)] ::
            (if c0.sha ≠ sel then (selectionEffect c0.sha q).toList else [])⟩,
          ⟨c0.sha, 0, []⟩, ?_, second, rfl, rfl, ?_⟩
        · rw [reconcilePass_cons]
          simp only [hs, ne_eq, not_false_eq_true, if_true, hany2,
            Bool.false_eq_true, if_false]
        · by_cases hcs : c0.sha = sel
          · simp [hcs]
          · rcases hout : selectionEffect c0.sha q with _ | out
            · simp [hcs, hout]
            · simp [hcs, hout]

/-- Witness for C6 (amended): the two successive passes of the
counterexample input, with total write count bounded by two. -/
theorem reconcilePass_two_runs_witness :
    ∃ r1 r2, reconcilePass [⟨"a"⟩] "b" [] = Except.ok r1 ∧
      reconcilePass [⟨"a"⟩] r1.selection [] = Except.ok r2 ∧
      r2.selection = r1.selection ∧ r2.pushes = [] ∧
      r1.pushes.length + r2.pushes.length ≤ 2 :=
  reconcilePass_two_runs [⟨"a"⟩] "b" [] (by decide)
